import Mathlib

/-!
Verification of the wiki_topic_labels library (wiki_topic_labels.py).

The external encyclopedia collaborator is modelled by explicit function
parameters: a search function returning the ordered list of page titles
for a query, and a page-detail function returning either the list of
categories of a page or one of the collaborator's error kinds.  Scores
are modelled as rationals; every score the program handles is a dyadic
rational that the host floating-point type represents exactly at the
magnitudes involved.  Score mappings are association lists kept in
insertion order, mirroring the insertion-ordered dictionaries of the
host runtime, and the Counter operations used by the program (addition
with removal of non-positive entries, zero default on missing keys,
stable descending extraction of most common entries) are modelled from
their documented runtime semantics.
-/

/-- A score mapping: an association list from labels to scores, kept in
insertion order like the runtime dictionary it models. -/
abbrev ScoreMap := List (String × ℚ)

/-- Dictionary write: an existing key keeps its position and receives the
new value, a new key is appended at the end. -/
def dictInsert : ScoreMap → String → ℚ → ScoreMap
  | [], k, v => [(k, v)]
  | p :: ps, k, v => if p.1 = k then (k, v) :: ps else p :: dictInsert ps k v

/-- Counter-style read: a missing key scores zero. -/
def lookup0 : ScoreMap → String → ℚ
  | [], _ => 0
  | p :: ps, k => if p.1 = k then p.2 else lookup0 ps k

/-- Key membership test of a mapping. -/
def containsKey (m : ScoreMap) (k : String) : Bool :=
  m.any (fun p => decide (p.1 = k))

/-- Keys of a mapping in insertion order. -/
def keys (m : ScoreMap) : List String :=
  m.map Prod.fst

/-- Sum of the values carried by one key across an association list. -/
def sumVals (m : ScoreMap) (k : String) : ℚ :=
  ((m.filter (fun p => decide (p.1 = k))).map Prod.snd).sum

/-- Helper of rank_wiki_labels: write every result at 0-indexed position j
(counting from i) into the dictionary with score 2 ^ (-j), a later
duplicate occurrence overwriting an earlier one. -/
def rankFrom : Nat → List String → ScoreMap → ScoreMap
  | _, [], m => m
  | i, r :: rs, m => rankFrom (i + 1) rs (dictInsert m r (((1 : ℚ) / 2) ^ i))

/-- Model of rank_wiki_labels: turn the ordered search results of one query
into a score mapping assigning 2 ^ (-i) to the result at position i. -/
def rank_wiki_labels (results : List String) : ScoreMap :=
  rankFrom 0 results []

/-- Largest 0-indexed position at which an occurring element appears. -/
def lastRank : List String → String → Nat
  | [], _ => 0
  | _ :: xs, L => if L ∈ xs then lastRank xs L + 1 else 0

/-- Error kinds of the external page-detail collaborator, modelling the
exception taxonomy caught by get_wiki_cats. -/
inductive WikiError where
  | pageError
  | disambiguationError
  | wikipediaException

/-- Model of get_wiki_cats: categories of a page title, with every error
kind of the collaborator recovered into an empty category list. -/
def get_wiki_cats (page : String → Except WikiError (List String))
    (title : String) : List String :=
  match page title with
  | Except.ok cs => cs
  | Except.error _ => []

/-- Model of the combination enumeration used by bootstrap_topic: all
n-element combinations of a list, terms in original relative order,
combinations in lexicographic-by-position order. -/
def combinations {α : Type} : List α → Nat → List (List α)
  | _, 0 => [[]]
  | [], _ + 1 => []
  | x :: xs, n + 1 =>
      (combinations xs n).map (fun c => x :: c) ++ combinations xs (n + 1)

/-- Model of bootstrap_topic: clamp the bootstrap size to the topic length,
then emit one space-joined query per combination with the anchors
appended. -/
def bootstrap_topic (topic anchors : List String) (n_terms : Nat) : List String :=
  (combinations topic (if topic.length < n_terms then topic.length else n_terms)).map
    (fun t => String.intercalate " " (t ++ anchors))

/-- Counter update loop: for each entry of the second mapping in order, set
self.key to other.value plus the previous self.value. -/
def addAll (self other : ScoreMap) : ScoreMap :=
  other.foldl (fun s p => dictInsert s p.1 (p.2 + lookup0 s p.1)) self

/-- Counter positivity sweep: drop every entry whose score is not positive. -/
def keepPositive (m : ScoreMap) : ScoreMap :=
  m.filter (fun p => decide (0 < p.2))

/-- Counter in-place addition: per-key summation followed by the positivity
sweep, as the runtime Counter addition performs. -/
def counterIAdd (self other : ScoreMap) : ScoreMap :=
  keepPositive (addAll self other)

/-- Model of bootstrap_labeller: sum the ranked score mappings of all
bootstrap queries into one accumulator. -/
def bootstrap_labeller (search : String → List String)
    (topic anchors : List String) (n_terms : Nat) : ScoreMap :=
  (bootstrap_topic topic anchors n_terms).foldl
    (fun counts q => counterIAdd counts (rank_wiki_labels (search q))) []

/-- Accumulator write of the category pass: add v onto the current value of
key k, inserting the key with that sum if absent. -/
def addTo (m : ScoreMap) (k : String) (v : ℚ) : ScoreMap :=
  dictInsert m k (lookup0 m k + v)

/-- Inner step of the category pass: skip a category equal to its source
term, skip a category that is not already a scored label, otherwise
accumulate the source score onto the category. -/
def catStep (counts : ScoreMap) (term : String) (score : ℚ)
    (cum : ScoreMap) (cat : String) : ScoreMap :=
  if cat = term then cum
  else if containsKey counts cat then addTo cum cat score else cum

/-- First loop of enrich_from_categories: walk the scored labels, skip
those scoring below min_score, and accumulate each remaining score onto
the categories of its label that are themselves already labels. -/
def buildCumulator (page : String → Except WikiError (List String))
    (counts : ScoreMap) (min_score : ℚ) : ScoreMap :=
  counts.foldl
    (fun cum p =>
      if p.2 < min_score then cum
      else (get_wiki_cats page p.1).foldl (catStep counts p.1 p.2) cum)
    []

/-- Insertion into a descending-sorted list, placed before the first entry
whose score is not larger, so that an earlier-inserted entry of equal
score stays in front. -/
def insertDesc (x : String × ℚ) : List (String × ℚ) → List (String × ℚ)
  | [] => [x]
  | y :: ys => if x.2 < y.2 then y :: insertDesc x ys else x :: y :: ys

/-- Stable descending sort by score, modelling the stable sort the runtime
Counter uses to extract its most common entries. -/
def sortDesc : List (String × ℚ) → List (String × ℚ)
  | [] => []
  | x :: xs => insertDesc x (sortDesc xs)

/-- Model of Counter.most_common: all entries in stable descending score
order, truncated to n entries when n is given. -/
def most_common (m : ScoreMap) : Option Nat → List (String × ℚ)
  | none => sortDesc m
  | some n => (sortDesc m).take n

/-- Second loop of enrich_from_categories: write the boosted score of one
accumulated category back into the label scores. -/
def boostStep (category_boost : ℚ) (cts : ScoreMap) (p : String × ℚ) : ScoreMap :=
  dictInsert cts p.1 (lookup0 cts p.1 + category_boost * p.2)

/-- Model of enrich_from_categories: accumulate category contributions from
labels scoring at least min_score, then add category_boost times each
accumulated contribution onto the existing score of that category, in
descending order of accumulated contribution. -/
def enrich_from_categories (page : String → Except WikiError (List String))
    (counts : ScoreMap) (min_score category_boost : ℚ) : ScoreMap :=
  (most_common (buildCumulator page counts min_score) none).foldl
    (boostStep category_boost) counts

/-- Label extraction of suggest_labels: the labels of the most common
entries, scores dropped. -/
def select (counts : ScoreMap) (topn : Option Nat) : List String :=
  (most_common counts topn).map Prod.fst

/-- Model of suggest_labels: aggregate the bootstrap queries, optionally
run the category pass, and return the top labels. -/
def suggest_labels (search : String → List String)
    (page : String → Except WikiError (List String))
    (topic : List String) (contextual_anchors : List String)
    (topn : Option Nat) (bootstrap_size : Nat)
    (boost_with_categories : Bool) : List String :=
  let counts := bootstrap_labeller search topic contextual_anchors bootstrap_size
  let counts := if boost_with_categories
    then enrich_from_categories page counts (1 / 10) 2 else counts
  select counts topn

/-- One lookup against a least-recently-used cache of the given capacity,
modelling the default bounded memoization applied to rank_wiki_labels
and get_wiki_cats: a hit moves the key to the front, a miss (an external
call, flagged true) inserts the key in front and evicts beyond the
capacity. -/
def lruStep (cap : Nat) (st : List String) (q : String) : List String × Bool :=
  if q ∈ st then (q :: st.erase q, false)
  else ((q :: st).take cap, true)

/-- Miss flags of a sequence of cache lookups: true exactly at the lookups
that re-invoke the external collaborator. -/
def lruMisses (cap : Nat) (st : List String) : List String → List Bool
  | [] => []
  | q :: qs => (lruStep cap st q).2 :: lruMisses cap (lruStep cap st q).1 qs

/-- A lookup trace with 129 distinct keys: one query, 128 distinct other
queries, then the first query again. -/
def cexQueries : List String :=
  "q" :: ((List.range 128).map (fun i => toString i) ++ ["q"])

/-- Reading a dictionary after a write: the written key has the new value,
any other key is unchanged. -/
theorem lookup0_dictInsert (m : ScoreMap) (k : String) (v : ℚ) (l : String) :
    lookup0 (dictInsert m k v) l = if l = k then v else lookup0 m l := by
  induction m with
  | nil =>
      rcases eq_or_ne l k with hlk | hlk
      · subst hlk; simp [dictInsert, lookup0]
      · simp [dictInsert, lookup0, hlk, Ne.symm hlk]
  | cons p ps ih =>
      rcases eq_or_ne l k with hlk | hlk
      · subst hlk
        by_cases hpk : p.1 = l
        · simp [dictInsert, lookup0, hpk]
        · simp [dictInsert, lookup0, hpk, ih]
      · by_cases hpk : p.1 = k
        · have hpl : p.1 ≠ l := by rw [hpk]; exact Ne.symm hlk
          simp [dictInsert, lookup0, hpk, hpl, hlk, Ne.symm hlk]
        · by_cases hpl : p.1 = l
          · simp [dictInsert, lookup0, hpk, hpl, hlk]
          · simp [dictInsert, lookup0, hpk, hpl, hlk, ih]

/-- Clamping equation of bootstrap_topic stated with a minimum. -/
theorem bootstrap_topic_min (topic anchors : List String) (n : Nat) :
    bootstrap_topic topic anchors n
      = (combinations topic (min n topic.length)).map
          (fun t => String.intercalate " " (t ++ anchors)) := by
  unfold bootstrap_topic
  rcases Nat.lt_or_ge topic.length n with h | h
  · rw [if_pos h, Nat.min_eq_right (Nat.le_of_lt h)]
  · rw [if_neg (Nat.not_lt.mpr h), Nat.min_eq_left h]

/-- Closed form of the ranking fold: an element of the remaining results
scores 2 ^ (-position of its last occurrence counted from i), any other
key keeps its accumulator value. -/
theorem lookup0_rankFrom (rs : List String) :
    ∀ (i : Nat) (m : ScoreMap) (L : String),
      lookup0 (rankFrom i rs m) L
        = if L ∈ rs then ((1 : ℚ) / 2) ^ (i + lastRank rs L) else lookup0 m L := by
  induction rs with
  | nil => intro i m L; simp [rankFrom, lastRank]
  | cons r rs ih =>
      intro i m L
      simp only [rankFrom]
      rw [ih]
      by_cases hmem : L ∈ rs
      · have hcons : L ∈ r :: rs := List.mem_cons_of_mem _ hmem
        rw [if_pos hmem, if_pos hcons]
        have harith : i + 1 + lastRank rs L = i + lastRank (r :: rs) L := by
          simp only [lastRank, if_pos hmem]
          omega
        rw [harith]
      · rw [if_neg hmem, lookup0_dictInsert]
        by_cases hLr : L = r
        · subst hLr
          rw [if_pos rfl, if_pos (List.mem_cons_self _ _)]
          simp [lastRank, hmem]
        · rw [if_neg hLr, if_neg (by simp [hLr, hmem])]

/-- Closed form of rank_wiki_labels: an occurring title scores 2 ^ (-last
occurrence position), an absent title scores zero. -/
theorem lookup0_rank_wiki_labels (results : List String) (L : String) :
    lookup0 (rank_wiki_labels results) L
      = if L ∈ results then ((1 : ℚ) / 2) ^ lastRank results L else 0 := by
  have h := lookup0_rankFrom results 0 [] L
  simpa [rank_wiki_labels, lookup0] using h

/-- An index below the length reads an actual element of the list. -/
theorem getD_mem_of_lt (l : List String) (k : Nat) (hk : k < l.length) :
    l.getD k "" ∈ l := by
  induction l generalizing k with
  | nil => exact absurd hk (Nat.not_lt_zero k)
  | cons x xs ih =>
      cases k with
      | zero => simp
      | succ k =>
          simp only [List.getD_cons_succ]
          exact List.mem_cons_of_mem _ (ih k (by simpa using hk))

/-- The last occurrence position of an occurring element is a position. -/
theorem lastRank_lt_length (l : List String) (L : String) (h : L ∈ l) :
    lastRank l L < l.length := by
  induction l with
  | nil => cases h
  | cons x xs ih =>
      by_cases hm : L ∈ xs
      · have := ih hm
        simp only [lastRank, if_pos hm, List.length_cons]
        omega
      · simp only [lastRank, if_neg hm, List.length_cons]
        omega

/-- Reading a list at the last occurrence position of an occurring element
gives that element back. -/
theorem getD_lastRank (l : List String) (L : String) (h : L ∈ l) :
    l.getD (lastRank l L) "" = L := by
  induction l with
  | nil => cases h
  | cons x xs ih =>
      by_cases hm : L ∈ xs
      · simp only [lastRank, if_pos hm, List.getD_cons_succ]
        exact ih hm
      · have hx : L = x := by
          rcases List.mem_cons.mp h with h1 | h1
          · exact h1
          · exact absurd h1 hm
        subst hx
        simp [lastRank, hm]

/-- No occurrence of an element lies strictly beyond its last occurrence
position. -/
theorem getD_after_lastRank (l : List String) (L : String) (h : L ∈ l) :
    ∀ k, lastRank l L < k → k < l.length → l.getD k "" ≠ L := by
  induction l with
  | nil => cases h
  | cons x xs ih =>
      intro k hk hlen
      by_cases hm : L ∈ xs
      · cases k with
        | zero => simp [lastRank, hm] at hk
        | succ k =>
            simp only [lastRank, if_pos hm] at hk
            simp only [List.getD_cons_succ]
            exact ih hm k (by omega) (by simpa [List.length_cons] using hlen)
      · cases k with
        | zero => exact absurd hk (by omega)
        | succ k =>
            simp only [List.getD_cons_succ]
            intro hEq
            apply hm
            rw [← hEq]
            exact getD_mem_of_lt xs k (by simpa [List.length_cons] using hlen)

/-- On a duplicate-free list the last occurrence position of the element at
position i is i itself. -/
theorem lastRank_getD_nodup (l : List String) :
    l.Nodup → ∀ (i : Nat), i < l.length → lastRank l (l.getD i "") = i := by
  induction l with
  | nil => intro _ i hi; exact absurd hi (Nat.not_lt_zero i)
  | cons x xs ih =>
      intro hnd i hi
      cases i with
      | zero =>
          have hx : x ∉ xs := (List.nodup_cons.mp hnd).1
          simp [lastRank, hx]
      | succ i =>
          have hlen : i < xs.length := by simpa using hi
          have hmem : xs.getD i "" ∈ xs := getD_mem_of_lt xs i hlen
          simp only [List.getD_cons_succ, lastRank, if_pos hmem]
          rw [ih (List.nodup_cons.mp hnd).2 i hlen]

/-- Claim C1, counterexample: on the duplicated result sequence X, X the
title at position 0 scores 1/2, not 1, because the later duplicate
occurrence overwrites the earlier one. -/
theorem rank_wiki_labels_duplicate_cex :
    lookup0 (rank_wiki_labels ["X", "X"]) ((["X", "X"] : List String).getD 0 "") = 1 / 2
    ∧ ¬ lookup0 (rank_wiki_labels ["X", "X"]) ((["X", "X"] : List String).getD 0 "") = 1 := by
  constructor
  · norm_num [rank_wiki_labels, rankFrom, dictInsert, lookup0]
  · norm_num [rank_wiki_labels, rankFrom, dictInsert, lookup0]

/-- Claim C1, amended: for every query whose external search returns a
result sequence of pairwise distinct titles, rank_wiki_labels assigns
score 2 ^ (-i) to the title at 0-indexed position i, and whenever such a
sequence is non-empty its title at position 0 scores exactly 1. -/
theorem rank_wiki_labels_distinct_spec :
    (∀ (results : List String), results.Nodup → ∀ (i : Nat), i < results.length →
        lookup0 (rank_wiki_labels results) (results.getD i "") = ((1 : ℚ) / 2) ^ i)
    ∧ (∀ (results : List String), results.Nodup → results ≠ [] →
        lookup0 (rank_wiki_labels results) (results.getD 0 "") = 1) := by
  constructor
  · intro results hnd i hi
    rw [lookup0_rank_wiki_labels, if_pos (getD_mem_of_lt results i hi),
        lastRank_getD_nodup results hnd i hi]
  · intro results hnd hne
    have hlen : 0 < results.length := List.length_pos.mpr hne
    rw [lookup0_rank_wiki_labels, if_pos (getD_mem_of_lt results 0 hlen),
        lastRank_getD_nodup results hnd 0 hlen, pow_zero]

/-- Claim C1, witness: the amended statement evaluated on the distinct
result sequence A, B. -/
theorem rank_wiki_labels_distinct_spec_witness :
    lookup0 (rank_wiki_labels ["A", "B"]) ((["A", "B"] : List String).getD 1 "") = ((1 : ℚ) / 2) ^ 1
    ∧ lookup0 (rank_wiki_labels ["A", "B"]) ((["A", "B"] : List String).getD 0 "") = 1 :=
  ⟨rank_wiki_labels_distinct_spec.1 ["A", "B"] (by decide) 1 (by decide),
   rank_wiki_labels_distinct_spec.2 ["A", "B"] (by decide) (by decide)⟩

/-- Claim C10: a title occurring several times in one result sequence
scores 2 ^ (-j) for its last occurrence position j; that position holds
the title and no later position does. -/
theorem rank_wiki_labels_last_occurrence (results : List String) (L : String)
    (h : L ∈ results) :
    lookup0 (rank_wiki_labels results) L = ((1 : ℚ) / 2) ^ lastRank results L
    ∧ lastRank results L < results.length
    ∧ results.getD (lastRank results L) "" = L
    ∧ ∀ k, lastRank results L < k → k < results.length → results.getD k "" ≠ L :=
  ⟨by rw [lookup0_rank_wiki_labels, if_pos h],
   lastRank_lt_length results L h, getD_lastRank results L h,
   getD_after_lastRank results L h⟩

/-- Claim C10, witness: the last-occurrence statement evaluated on the
sequence X, X, Y, whose duplicate title X scores 1/2 at last position 1. -/
theorem rank_wiki_labels_last_occurrence_witness :
    lookup0 (rank_wiki_labels ["X", "X", "Y"]) "X"
      = ((1 : ℚ) / 2) ^ lastRank ["X", "X", "Y"] "X"
    ∧ (["X", "X", "Y"] : List String).getD (lastRank ["X", "X", "Y"] "X") "" = "X"
    ∧ (["X", "X", "Y"] : List String).getD 2 "" ≠ "X" :=
  ⟨(rank_wiki_labels_last_occurrence ["X", "X", "Y"] "X" (by decide)).1,
   (rank_wiki_labels_last_occurrence ["X", "X", "Y"] "X" (by decide)).2.2.1,
   (rank_wiki_labels_last_occurrence ["X", "X", "Y"] "X" (by decide)).2.2.2 2
     (by decide) (by decide)⟩

/-- Claim C4: an oversized bootstrap size is clamped and behaves exactly
like a bootstrap size equal to the topic length. -/
theorem bootstrap_topic_clamp (topic anchors : List String) (n : Nat)
    (h : topic.length < n) :
    bootstrap_topic topic anchors n = bootstrap_topic topic anchors topic.length := by
  unfold bootstrap_topic
  rw [if_pos h, if_neg (lt_irrefl topic.length)]

/-- Claim C4, witness: the clamping equation evaluated on a one-term topic
with an oversized bootstrap size. -/
theorem bootstrap_topic_clamp_witness :
    bootstrap_topic ["a"] ["z"] 5 = bootstrap_topic ["a"] ["z"] 1 :=
  bootstrap_topic_clamp ["a"] ["z"] 5 (by decide)

/-- Claim C9: a clamped bootstrap size of zero, in particular any size on
an empty topic, yields exactly one query made of the anchors joined by
spaces, the empty string without anchors. -/
theorem bootstrap_topic_size_zero :
    (∀ (topic anchors : List String),
        bootstrap_topic topic anchors 0 = [String.intercalate " " anchors])
    ∧ (∀ (anchors : List String) (n : Nat),
        bootstrap_topic [] anchors n = [String.intercalate " " anchors])
    ∧ bootstrap_topic [] [] 5 = [""]
    ∧ bootstrap_topic ["x", "y"] ["p", "q"] 0 = ["p q"] := by
  refine ⟨?_, ?_, ?_, ?_⟩
  · intro topic anchors
    unfold bootstrap_topic
    rw [if_neg (Nat.not_lt_zero topic.length)]
    simp [combinations]
  · intro anchors n
    cases n with
    | zero =>
        unfold bootstrap_topic
        simp [combinations]
    | succ m =>
        unfold bootstrap_topic
        simp [combinations]
  · decide
  · decide

/-- Claim C7: every error kind of the page-detail collaborator is recovered
into an empty category list instead of propagating. -/
theorem get_wiki_cats_error (page : String → Except WikiError (List String))
    (title : String) (e : WikiError) (h : page title = Except.error e) :
    get_wiki_cats page title = [] := by
  unfold get_wiki_cats
  rw [h]

/-- Claim C7, witness: the recovery statement evaluated on a collaborator
that always fails with the not-found error kind. -/
theorem get_wiki_cats_error_witness :
    get_wiki_cats (fun _ => Except.error WikiError.pageError) "Python" = [] :=
  get_wiki_cats_error (fun _ => Except.error WikiError.pageError) "Python"
    WikiError.pageError rfl

/-- A mapping of non-negative values reads non-negatively at every key. -/
theorem lookup0_nonneg (m : ScoreMap) (hm : ∀ p ∈ m, 0 ≤ p.2) (k : String) :
    0 ≤ lookup0 m k := by
  induction m with
  | nil => simp [lookup0]
  | cons p ps ih =>
      simp only [lookup0]
      by_cases h : p.1 = k
      · rw [if_pos h]; exact hm p (List.mem_cons_self _ _)
      · rw [if_neg h]; exact ih (fun q hq => hm q (List.mem_cons_of_mem _ hq))

/-- Every entry of a dictionary after a write is the written pair or an old
entry. -/
theorem mem_dictInsert (m : ScoreMap) (k : String) (v : ℚ) :
    ∀ q ∈ dictInsert m k v, q = (k, v) ∨ q ∈ m := by
  induction m with
  | nil =>
      intro q hq
      simp only [dictInsert, List.mem_singleton] at hq
      exact Or.inl hq
  | cons p ps ih =>
      intro q hq
      by_cases h : p.1 = k
      · simp only [dictInsert, if_pos h] at hq
        rcases List.mem_cons.mp hq with h1 | h1
        · exact Or.inl h1
        · exact Or.inr (List.mem_cons_of_mem _ h1)
      · simp only [dictInsert, if_neg h] at hq
        rcases List.mem_cons.mp hq with h1 | h1
        · exact Or.inr (h1 ▸ List.mem_cons_self _ _)
        · rcases ih q h1 with h2 | h2
          · exact Or.inl h2
          · exact Or.inr (List.mem_cons_of_mem _ h2)

/-- The ranking fold only writes positive scores. -/
theorem rankFrom_pos (rs : List String) :
    ∀ (i : Nat) (m : ScoreMap), (∀ p ∈ m, 0 < p.2) →
      ∀ p ∈ rankFrom i rs m, 0 < p.2 := by
  induction rs with
  | nil => intro i m hm; simpa [rankFrom] using hm
  | cons r rs ih =>
      intro i m hm
      simp only [rankFrom]
      apply ih
      intro p hp
      rcases mem_dictInsert m r (((1 : ℚ) / 2) ^ i) p hp with h | h
      · rw [h]
        exact pow_pos (by norm_num) i
      · exact hm p h

/-- Every score of a ranked query result is positive. -/
theorem rank_wiki_labels_pos (results : List String) :
    ∀ p ∈ rank_wiki_labels results, 0 < p.2 :=
  rankFrom_pos results 0 [] (by intro p hp; cases hp)

/-- The positivity sweep leaves an all-positive mapping unchanged. -/
theorem keepPositive_of_pos (m : ScoreMap) (hm : ∀ p ∈ m, 0 < p.2) :
    keepPositive m = m := by
  unfold keepPositive
  apply List.filter_eq_self.mpr
  intro p hp
  exact decide_eq_true (hm p hp)

/-- Every entry surviving the positivity sweep is positive. -/
theorem keepPositive_pos (m : ScoreMap) : ∀ p ∈ keepPositive m, 0 < p.2 := by
  intro p hp
  unfold keepPositive at hp
  exact of_decide_eq_true (List.mem_filter.mp hp).2

/-- Splitting the per-key value sum at a list head. -/
theorem sumVals_cons (q : String × ℚ) (qs : ScoreMap) (k : String) :
    sumVals (q :: qs) k = (if q.1 = k then q.2 else 0) + sumVals qs k := by
  by_cases h : q.1 = k
  · simp [sumVals, List.filter_cons, h]
  · simp [sumVals, List.filter_cons, h]

/-- The Counter update loop adds, per key, the summed values of the second
mapping onto the first. -/
theorem lookup0_addAll (other : ScoreMap) :
    ∀ (self : ScoreMap) (k : String),
      lookup0 (addAll self other) k = lookup0 self k + sumVals other k := by
  induction other with
  | nil => intro self k; simp [addAll, sumVals]
  | cons q qs ih =>
      intro self k
      rw [show addAll self (q :: qs)
            = addAll (dictInsert self q.1 (q.2 + lookup0 self q.1)) qs from rfl,
          ih, lookup0_dictInsert, sumVals_cons]
      by_cases h : k = q.1
      · subst h
        rw [if_pos rfl, if_pos rfl]
        ring
      · have h2 : ¬ q.1 = k := fun hh => h hh.symm
        rw [if_neg h, if_neg h2]
        ring

/-- The Counter update loop keeps all scores positive. -/
theorem addAll_pos (other : ScoreMap) :
    ∀ (self : ScoreMap), (∀ p ∈ self, 0 < p.2) → (∀ p ∈ other, 0 < p.2) →
      ∀ p ∈ addAll self other, 0 < p.2 := by
  induction other with
  | nil => intro self hs _; simpa [addAll] using hs
  | cons q qs ih =>
      intro self hs ho
      rw [show addAll self (q :: qs)
            = addAll (dictInsert self q.1 (q.2 + lookup0 self q.1)) qs from rfl]
      apply ih
      · intro p hp
        rcases mem_dictInsert self q.1 _ p hp with h | h
        · rw [h]
          have h1 : 0 < q.2 := ho q (List.mem_cons_self _ _)
          have h2 : 0 ≤ lookup0 self q.1 :=
            lookup0_nonneg self (fun r hr => le_of_lt (hs r hr)) q.1
          dsimp only
          linarith
        · exact hs p h
      · intro p hp
        exact ho p (List.mem_cons_of_mem _ hp)

/-- Every score in a Counter addition result is positive. -/
theorem counterIAdd_pos (self other : ScoreMap) :
    ∀ p ∈ counterIAdd self other, 0 < p.2 :=
  keepPositive_pos (addAll self other)

/-- A dictionary write extends the key list with the key or leaves the key
list unchanged when the key is present. -/
theorem keys_dictInsert (m : ScoreMap) (k : String) (v : ℚ) :
    keys (dictInsert m k v) = if k ∈ keys m then keys m else keys m ++ [k] := by
  induction m with
  | nil => simp [dictInsert, keys]
  | cons p ps ih =>
      by_cases h : p.1 = k
      · have hk : k ∈ keys (p :: ps) := by simp [keys, ← h]
        rw [if_pos hk]
        simp [dictInsert, keys, h]
      · have h' : ¬ k = p.1 := fun hh => h hh.symm
        simp only [dictInsert, if_neg h, keys, List.map_cons] at ih ⊢
        rw [ih]
        by_cases hk : k ∈ List.map Prod.fst ps
        · rw [if_pos hk, if_pos (by simp [List.mem_cons, hk])]
        · rw [if_neg hk, if_neg (by simp [List.mem_cons, h', hk]), List.cons_append]

/-- A dictionary write preserves key-list uniqueness. -/
theorem nodup_keys_dictInsert (m : ScoreMap) (k : String) (v : ℚ)
    (h : (keys m).Nodup) : (keys (dictInsert m k v)).Nodup := by
  rw [keys_dictInsert]
  by_cases hk : k ∈ keys m
  · rw [if_pos hk]; exact h
  · rw [if_neg hk]
    simp [List.nodup_append, h, hk]

/-- The ranking fold preserves key-list uniqueness. -/
theorem nodup_keys_rankFrom (rs : List String) :
    ∀ (i : Nat) (m : ScoreMap), (keys m).Nodup → (keys (rankFrom i rs m)).Nodup := by
  induction rs with
  | nil => intro i m hm; simpa [rankFrom] using hm
  | cons r rs ih =>
      intro i m hm
      simp only [rankFrom]
      exact ih _ _ (nodup_keys_dictInsert m r _ hm)

/-- The keys of a ranked query result are unique. -/
theorem nodup_keys_rank_wiki_labels (results : List String) :
    (keys (rank_wiki_labels results)).Nodup :=
  nodup_keys_rankFrom results 0 [] (by simp [keys])

/-- An absent key sums to zero. -/
theorem sumVals_of_not_mem (m : ScoreMap) (k : String) :
    k ∉ keys m → sumVals m k = 0 := by
  induction m with
  | nil => intro _; simp [sumVals]
  | cons q qs ih =>
      intro h
      simp only [keys, List.map_cons] at h
      have h1 : ¬ q.1 = k := fun hh => h (List.mem_cons.mpr (Or.inl hh.symm))
      have h2 : k ∉ keys qs := by
        intro hh
        exact h (List.mem_cons_of_mem _ (by simpa only [keys] using hh))
      rw [sumVals_cons, if_neg h1, ih h2, add_zero]

/-- On unique keys the per-key value sum is the dictionary read. -/
theorem sumVals_eq_lookup0 (m : ScoreMap) (h : (keys m).Nodup) (k : String) :
    sumVals m k = lookup0 m k := by
  induction m with
  | nil => simp [sumVals, lookup0]
  | cons q qs ih =>
      have h' : (q.1 :: List.map Prod.fst qs).Nodup := by
        simpa only [keys, List.map_cons] using h
      have hcons := List.nodup_cons.mp h'
      by_cases hqk : q.1 = k
      · have hkq : k ∉ keys qs := by
          simp only [keys]
          rw [← hqk]
          exact hcons.1
        rw [sumVals_cons, if_pos hqk, sumVals_of_not_mem qs k hkq, add_zero]
        simp [lookup0, hqk]
      · rw [sumVals_cons, if_neg hqk, zero_add, ih (by simp only [keys]; exact hcons.2)]
        simp [lookup0, hqk]

/-- Counter addition of a ranked query result adds, per key, its ranked
score onto the accumulator. -/
theorem lookup0_counterIAdd (self : ScoreMap) (rs : List String) (k : String)
    (hself : ∀ p ∈ self, 0 < p.2) :
    lookup0 (counterIAdd self (rank_wiki_labels rs)) k
      = lookup0 self k + lookup0 (rank_wiki_labels rs) k := by
  unfold counterIAdd
  rw [keepPositive_of_pos _
        (addAll_pos (rank_wiki_labels rs) self hself (rank_wiki_labels_pos rs)),
      lookup0_addAll,
      sumVals_eq_lookup0 _ (nodup_keys_rank_wiki_labels rs)]

/-- The aggregation fold sums the per-query ranked scores of a label onto
the initial accumulator. -/
theorem lookup0_labeller_fold (search : String → List String) (k : String)
    (qs : List String) :
    ∀ (init : ScoreMap), (∀ p ∈ init, 0 < p.2) →
      lookup0 (qs.foldl
          (fun counts q => counterIAdd counts (rank_wiki_labels (search q))) init) k
        = lookup0 init k
          + (qs.map (fun q => lookup0 (rank_wiki_labels (search q)) k)).sum := by
  induction qs with
  | nil => intro init hinit; simp
  | cons q qs ih =>
      intro init hinit
      rw [List.foldl_cons, ih _ (counterIAdd_pos _ _),
          lookup0_counterIAdd init (search q) k hinit]
      simp only [List.map_cons, List.sum_cons]
      ring

/-- A sum of guarded terms is the sum over the filtered list. -/
theorem sum_map_ite_filter (f : String → ℚ) (P : String → Prop) [DecidablePred P] :
    ∀ (qs : List String),
      (qs.map (fun q => if P q then f q else 0)).sum
        = ((qs.filter (fun q => decide (P q))).map f).sum := by
  intro qs
  induction qs with
  | nil => simp
  | cons q qs ih =>
      by_cases h : P q
      · simp [List.filter_cons, h, ih]
      · simp [List.filter_cons, h, ih]

/-- Claim C2: for every label L the aggregated score equals the sum, over
exactly the bootstrap queries whose result sequence contains L, of
2 ^ (-rank of L in that query), rank being the last occurrence position
of L there; merging is per-key summation, never replacement. -/
theorem bootstrap_labeller_sum (search : String → List String)
    (topic anchors : List String) (n : Nat) (L : String) :
    lookup0 (bootstrap_labeller search topic anchors n) L
      = (((bootstrap_topic topic anchors n).filter
            (fun q => decide (L ∈ search q))).map
          (fun q => ((1 : ℚ) / 2) ^ lastRank (search q) L)).sum := by
  unfold bootstrap_labeller
  rw [lookup0_labeller_fold search L (bootstrap_topic topic anchors n) []
        (by intro p hp; cases hp)]
  rw [show lookup0 [] L = 0 from rfl, zero_add]
  rw [show (fun q => lookup0 (rank_wiki_labels (search q)) L)
        = (fun q => if L ∈ search q
            then ((1 : ℚ) / 2) ^ lastRank (search q) L else 0)
      from funext (fun q => lookup0_rank_wiki_labels (search q) L)]
  exact sum_map_ite_filter _ _ _

/-- Descending insertion only walks past entries of strictly larger score,
so the entries of a given score that it passes cannot carry that score:
filtering one score value commutes with the insertion. -/
theorem filter_insertDesc (x : String × ℚ) (c : ℚ) :
    ∀ (t : List (String × ℚ)),
      (insertDesc x t).filter (fun p => decide (p.2 = c))
        = if x.2 = c
          then x :: t.filter (fun p => decide (p.2 = c))
          else t.filter (fun p => decide (p.2 = c)) := by
  intro t
  induction t with
  | nil =>
      by_cases h : x.2 = c
      · simp [insertDesc, h]
      · simp [insertDesc, h]
  | cons y ys ih =>
      by_cases hlt : x.2 < y.2
      · have e1 : insertDesc x (y :: ys) = y :: insertDesc x ys := by
          simp [insertDesc, hlt]
        rw [e1, List.filter_cons, ih]
        by_cases hx : x.2 = c
        · have hy : ¬ y.2 = c := by rw [← hx]; exact ne_of_gt hlt
          simp [hx, hy, List.filter_cons]
        · by_cases hy : y.2 = c
          · simp [hx, hy, List.filter_cons]
          · simp [hx, hy, List.filter_cons]
      · have e1 : insertDesc x (y :: ys) = x :: y :: ys := by
          simp [insertDesc, hlt]
        rw [e1, List.filter_cons]
        by_cases hx : x.2 = c
        · simp [hx, List.filter_cons]
        · simp [hx, List.filter_cons]

/-- Stability of the descending sort: the entries carrying one given score
appear in the sorted output exactly as they appear in the input. -/
theorem filter_sortDesc (c : ℚ) :
    ∀ (l : List (String × ℚ)),
      (sortDesc l).filter (fun p => decide (p.2 = c))
        = l.filter (fun p => decide (p.2 = c)) := by
  intro l
  induction l with
  | nil => rfl
  | cons x xs ih =>
      simp only [sortDesc]
      rw [filter_insertDesc, List.filter_cons]
      by_cases hx : x.2 = c
      · rw [if_pos hx, ih]
        simp [hx]
      · rw [if_neg hx, ih]
        simp [hx]

/-- Descending insertion permutes the element into the list. -/
theorem insertDesc_perm (x : String × ℚ) :
    ∀ (t : List (String × ℚ)), (insertDesc x t).Perm (x :: t) := by
  intro t
  induction t with
  | nil => exact List.Perm.refl _
  | cons y ys ih =>
      by_cases hlt : x.2 < y.2
      · simp only [insertDesc, if_pos hlt]
        exact (List.Perm.cons y ih).trans (List.Perm.swap x y ys)
      · simp only [insertDesc, if_neg hlt]
        exact List.Perm.refl _

/-- The descending sort is a permutation of its input. -/
theorem sortDesc_perm : ∀ (l : List (String × ℚ)), (sortDesc l).Perm l := by
  intro l
  induction l with
  | nil => exact List.Perm.refl _
  | cons x xs ih =>
      simp only [sortDesc]
      exact (insertDesc_perm x (sortDesc xs)).trans (List.Perm.cons x ih)

/-- Descending insertion preserves descending order. -/
theorem insertDesc_sorted (x : String × ℚ) :
    ∀ (t : List (String × ℚ)), t.Pairwise (fun a b => b.2 ≤ a.2) →
      (insertDesc x t).Pairwise (fun a b => b.2 ≤ a.2) := by
  intro t
  induction t with
  | nil => intro _; exact List.pairwise_singleton _ _
  | cons y ys ih =>
      intro hp
      have hyall := (List.pairwise_cons.mp hp).1
      have hys := (List.pairwise_cons.mp hp).2
      by_cases hlt : x.2 < y.2
      · simp only [insertDesc, if_pos hlt]
        apply List.pairwise_cons.mpr
        refine ⟨?_, ih hys⟩
        intro b hb
        have hb2 : b ∈ x :: ys := (insertDesc_perm x ys).mem_iff.mp hb
        rcases List.mem_cons.mp hb2 with h1 | h1
        · rw [h1]; exact le_of_lt hlt
        · exact hyall b h1
      · simp only [insertDesc, if_neg hlt]
        apply List.pairwise_cons.mpr
        refine ⟨?_, hp⟩
        intro b hb
        rcases List.mem_cons.mp hb with h1 | h1
        · rw [h1]; exact not_lt.mp hlt
        · exact le_trans (hyall b h1) (not_lt.mp hlt)

/-- The descending sort sorts by descending score. -/
theorem sortDesc_sorted : ∀ (l : List (String × ℚ)),
    (sortDesc l).Pairwise (fun a b => b.2 ≤ a.2) := by
  intro l
  induction l with
  | nil => exact List.Pairwise.nil
  | cons x xs ih => exact insertDesc_sorted x (sortDesc xs) ih

/-- Claim C3: selecting without a count returns all keys of the mapping,
with length equal to the size of the mapping, sorted descending by
score; a counted selection is the prefix of that full selection; and
entries of equal score keep the relative order in which they were first
inserted into the mapping. -/
theorem select_spec (counts : ScoreMap) :
    (select counts none).length = counts.length
    ∧ (select counts none).Perm (keys counts)
    ∧ (most_common counts none).Pairwise (fun a b => b.2 ≤ a.2)
    ∧ (∀ c : ℚ, (most_common counts none).filter (fun p => decide (p.2 = c))
        = counts.filter (fun p => decide (p.2 = c)))
    ∧ (∀ k : Nat, most_common counts (some k) = (most_common counts none).take k
        ∧ select counts (some k) = (select counts none).take k) := by
  refine ⟨?_, ?_, ?_, ?_, ?_⟩
  · simp only [select, most_common, List.length_map]
    exact (sortDesc_perm counts).length_eq
  · simp only [select, most_common, keys]
    exact (sortDesc_perm counts).map Prod.fst
  · exact sortDesc_sorted counts
  · intro c
    exact filter_sortDesc c counts
  · intro k
    refine ⟨rfl, ?_⟩
    simp [select, most_common, List.map_take]

/-- A fold preserves any invariant that every step taken on a list element
preserves. -/
theorem foldl_invariant {α β : Type} (P : β → Prop) (f : β → α → β) :
    ∀ (l : List α) (b : β), P b → (∀ (b' : β) (a : α), a ∈ l → P b' → P (f b' a)) →
      P (l.foldl f b) := by
  intro l
  induction l with
  | nil => intro b hb _; exact hb
  | cons a l ih =>
      intro b hb hstep
      rw [List.foldl_cons]
      exact ih _ (hstep b a (List.mem_cons_self _ _) hb)
        (fun b' a' ha' hb' => hstep b' a' (List.mem_cons_of_mem _ ha') hb')

/-- The key membership test agrees with membership in the key list. -/
theorem containsKey_iff (m : ScoreMap) (k : String) :
    containsKey m k = true ↔ k ∈ keys m := by
  simp [containsKey, keys, List.any_eq_true]

/-- The accumulator write introduces at most its own key. -/
theorem keys_addTo_subset (m : ScoreMap) (k : String) (v : ℚ) :
    ∀ k' ∈ keys (addTo m k v), k' ∈ keys m ∨ k' = k := by
  intro k' hk'
  unfold addTo at hk'
  rw [keys_dictInsert] at hk'
  by_cases h : k ∈ keys m
  · rw [if_pos h] at hk'
    exact Or.inl hk'
  · rw [if_neg h] at hk'
    rcases List.mem_append.mp hk' with h1 | h1
    · exact Or.inl h1
    · exact Or.inr (List.mem_singleton.mp h1)

/-- The inner category step keeps accumulator keys inside the label keys. -/
theorem keys_catStep_subset (counts : ScoreMap) (term : String) (score : ℚ)
    (cum : ScoreMap) (cat : String)
    (h : ∀ k ∈ keys cum, k ∈ keys counts) :
    ∀ k ∈ keys (catStep counts term score cum cat), k ∈ keys counts := by
  intro k hk
  unfold catStep at hk
  by_cases h1 : cat = term
  · rw [if_pos h1] at hk
    exact h k hk
  · rw [if_neg h1] at hk
    by_cases h2 : containsKey counts cat = true
    · rw [if_pos h2] at hk
      rcases keys_addTo_subset cum cat score k hk with h3 | h3
      · exact h k h3
      · rw [h3]
        exact (containsKey_iff counts cat).mp h2
    · rw [if_neg h2] at hk
      exact h k hk

/-- Every key of the category accumulator is a key of the label mapping. -/
theorem keys_buildCumulator_subset (page : String → Except WikiError (List String))
    (counts : ScoreMap) (ms : ℚ) :
    ∀ k ∈ keys (buildCumulator page counts ms), k ∈ keys counts := by
  unfold buildCumulator
  refine foldl_invariant (fun cum => ∀ k ∈ keys cum, k ∈ keys counts) _ counts [] ?_ ?_
  · intro k hk
    simp [keys] at hk
  · intro cum p _ hinv
    by_cases h : p.2 < ms
    · simpa [h] using hinv
    · simp only [if_neg h]
      refine foldl_invariant (fun cum2 => ∀ k ∈ keys cum2, k ∈ keys counts) _
        (get_wiki_cats page p.1) cum ?_ ?_
      · exact hinv
      · intro cum2 cat _ hinv2
        exact keys_catStep_subset counts p.1 p.2 cum2 cat hinv2

/-- Writing to an existing key leaves the key list unchanged. -/
theorem keys_dictInsert_mem (m : ScoreMap) (k : String) (v : ℚ) (h : k ∈ keys m) :
    keys (dictInsert m k v) = keys m := by
  rw [keys_dictInsert, if_pos h]

/-- Claim C6 core: the category pass leaves the key list unchanged. -/
theorem keys_enrich (page : String → Except WikiError (List String))
    (counts : ScoreMap) (ms cb : ℚ) :
    keys (enrich_from_categories page counts ms cb) = keys counts := by
  unfold enrich_from_categories
  have hsub := keys_buildCumulator_subset page counts ms
  refine foldl_invariant (fun cts => keys cts = keys counts) _
    (most_common (buildCumulator page counts ms) none) counts ?_ ?_
  · rfl
  · intro cts p hp hinv
    have hpc : p ∈ buildCumulator page counts ms := (sortDesc_perm _).mem_iff.mp hp
    have hmem : p.1 ∈ keys cts := by
      rw [hinv]
      exact hsub p.1 (List.mem_map_of_mem Prod.fst hpc)
    unfold boostStep
    rw [keys_dictInsert_mem cts p.1 _ hmem, hinv]

/-- The accumulator write keeps scores non-negative when the added score is
non-negative. -/
theorem addTo_nonneg (m : ScoreMap) (k : String) (v : ℚ)
    (hm : ∀ p ∈ m, 0 ≤ p.2) (hv : 0 ≤ v) : ∀ p ∈ addTo m k v, 0 ≤ p.2 := by
  intro p hp
  rcases mem_dictInsert m k _ p hp with h | h
  · rw [h]
    dsimp only
    have := lookup0_nonneg m hm k
    linarith
  · exact hm p h

/-- The inner category step keeps accumulator scores non-negative. -/
theorem catStep_nonneg (counts : ScoreMap) (term : String) (score : ℚ)
    (cum : ScoreMap) (cat : String) (hcum : ∀ p ∈ cum, 0 ≤ p.2) (hs : 0 ≤ score) :
    ∀ p ∈ catStep counts term score cum cat, 0 ≤ p.2 := by
  intro p hp
  unfold catStep at hp
  by_cases h1 : cat = term
  · rw [if_pos h1] at hp
    exact hcum p hp
  · rw [if_neg h1] at hp
    by_cases h2 : containsKey counts cat = true
    · rw [if_pos h2] at hp
      exact addTo_nonneg cum cat score hcum hs p hp
    · rw [if_neg h2] at hp
      exact hcum p hp

/-- All accumulated category contributions are non-negative when all label
scores are. -/
theorem buildCumulator_nonneg (page : String → Except WikiError (List String))
    (counts : ScoreMap) (ms : ℚ) (hc : ∀ p ∈ counts, 0 ≤ p.2) :
    ∀ p ∈ buildCumulator page counts ms, 0 ≤ p.2 := by
  unfold buildCumulator
  refine foldl_invariant (fun (cum : ScoreMap) => ∀ p ∈ cum, 0 ≤ p.2) _ counts [] ?_ ?_
  · intro p hp
    cases hp
  · intro cum q hq hinv
    by_cases h : q.2 < ms
    · simpa [h] using hinv
    · simp only [if_neg h]
      refine foldl_invariant (fun (cum2 : ScoreMap) => ∀ p ∈ cum2, 0 ≤ p.2) _
        (get_wiki_cats page q.1) cum ?_ ?_
      · exact hinv
      · intro cum2 cat _ hinv2
        exact catStep_nonneg counts q.1 q.2 cum2 cat hinv2 (hc q hq)

/-- The boost write-back loop never decreases any score when the boost
factor and the accumulated contributions are non-negative. -/
theorem lookup0_boost_fold_mono (cb : ℚ) (hcb : 0 ≤ cb) :
    ∀ (items : List (String × ℚ)), (∀ p ∈ items, 0 ≤ p.2) →
      ∀ (cts : ScoreMap) (L : String),
        lookup0 cts L ≤ lookup0 (items.foldl (boostStep cb) cts) L := by
  intro items
  induction items with
  | nil =>
      intro _ cts L
      simp
  | cons q qs ih =>
      intro hitems cts L
      rw [List.foldl_cons]
      have step : lookup0 cts L ≤ lookup0 (boostStep cb cts q) L := by
        unfold boostStep
        rw [lookup0_dictInsert]
        by_cases h : L = q.1
        · subst h
          rw [if_pos rfl]
          have h1 : 0 ≤ q.2 := hitems q (List.mem_cons_self _ _)
          have h2 := mul_nonneg hcb h1
          linarith
        · rw [if_neg h]
      exact le_trans step
        (ih (fun p hp => hitems p (List.mem_cons_of_mem _ hp)) (boostStep cb cts q) L)

/-- Claim C6: the category booster returns a mapping with exactly the key
list of its input, never introducing a label key absent from the input;
with a non-negative boost factor and non-negative input scores it only
increases the scores of those existing keys. -/
theorem enrich_keys_spec (page : String → Except WikiError (List String))
    (counts : ScoreMap) (min_score category_boost : ℚ) :
    keys (enrich_from_categories page counts min_score category_boost) = keys counts
    ∧ (0 ≤ category_boost → (∀ p ∈ counts, 0 ≤ p.2) →
        ∀ L, lookup0 counts L
          ≤ lookup0 (enrich_from_categories page counts min_score category_boost) L) := by
  constructor
  · exact keys_enrich page counts min_score category_boost
  · intro hcb hvals L
    unfold enrich_from_categories
    exact lookup0_boost_fold_mono category_boost hcb _
      (fun p hp => buildCumulator_nonneg page counts min_score hvals p
        ((sortDesc_perm _).mem_iff.mp hp)) counts L

/-- Claim C6, witness: the booster evaluated on two labels X and Y where Y
is a category of X, checking key preservation and score increase. -/
theorem enrich_keys_spec_witness :
    keys (enrich_from_categories
        (fun t => if t = "X" then Except.ok ["Y"] else Except.error WikiError.pageError)
        [("X", 1), ("Y", 1 / 2)] (1 / 10) 2) = keys [("X", 1), ("Y", 1 / 2)]
    ∧ lookup0 [("X", 1), ("Y", 1 / 2)] "Y"
        ≤ lookup0 (enrich_from_categories
            (fun t => if t = "X" then Except.ok ["Y"] else Except.error WikiError.pageError)
            [("X", 1), ("Y", 1 / 2)] (1 / 10) 2) "Y" :=
  ⟨(enrich_keys_spec
      (fun t => if t = "X" then Except.ok ["Y"] else Except.error WikiError.pageError)
      [("X", 1), ("Y", 1 / 2)] (1 / 10) 2).1,
   (enrich_keys_spec
      (fun t => if t = "X" then Except.ok ["Y"] else Except.error WikiError.pageError)
      [("X", 1), ("Y", 1 / 2)] (1 / 10) 2).2 (by norm_num)
     (by
        intro p hp
        simp only [List.mem_cons, List.mem_singleton] at hp
        rcases hp with rfl | hp
        · norm_num
        · rcases hp with rfl | hp
          · norm_num
          · cases hp) "Y"⟩

/-- Every emitted combination takes its terms from the base list in their
original relative order and has exactly the requested number of terms. -/
theorem combinations_sublist_length {α : Type} :
    ∀ (l : List α) (n : Nat), ∀ c ∈ combinations l n, c.Sublist l ∧ c.length = n := by
  intro l
  induction l with
  | nil =>
      intro n c hc
      cases n with
      | zero =>
          simp only [combinations, List.mem_singleton] at hc
          subst hc
          exact ⟨List.nil_sublist _, rfl⟩
      | succ m =>
          simp [combinations] at hc
  | cons x xs ih =>
      intro n c hc
      cases n with
      | zero =>
          simp only [combinations, List.mem_singleton] at hc
          subst hc
          exact ⟨List.nil_sublist _, rfl⟩
      | succ m =>
          simp only [combinations, List.mem_append, List.mem_map] at hc
          rcases hc with ⟨c0, hc0, rfl⟩ | hc1
          · rcases ih m c0 hc0 with ⟨hs, hl⟩
            exact ⟨List.Sublist.cons₂ x hs, by simp [hl]⟩
          · rcases ih (m + 1) c hc1 with ⟨hs, hl⟩
            exact ⟨List.Sublist.cons x hs, hl⟩

/-- Combination enumeration commutes with mapping a function over the base
list. -/
theorem combinations_map {α β : Type} (f : α → β) :
    ∀ (l : List α) (n : Nat),
      combinations (l.map f) n = (combinations l n).map (List.map f) := by
  intro l
  induction l with
  | nil =>
      intro n
      cases n with
      | zero => simp [combinations]
      | succ m => simp [combinations]
  | cons x xs ih =>
      intro n
      cases n with
      | zero => simp [combinations]
      | succ m =>
          simp only [List.map_cons, combinations, ih, List.map_append, List.map_map]
          congr 1

/-- A list is recovered by reading all its positions in order. -/
theorem map_getD_range {α : Type} (d : α) :
    ∀ (l : List α), (List.range l.length).map (fun i => l.getD i d) = l := by
  intro l
  induction l with
  | nil => simp
  | cons x xs ih =>
      rw [List.length_cons, List.range_succ_eq_map, List.map_cons, List.map_map]
      simp only [List.getD_cons_zero]
      have he : ((fun i => (x :: xs).getD i d) ∘ Nat.succ) = fun i => xs.getD i d :=
        funext (fun i => by simp [List.getD_cons_succ])
      rw [he, ih]

/-- Combinations of a list are the combinations of its position range read
back through the list. -/
theorem combinations_eq_index (topic : List String) (n : Nat) :
    combinations topic n
      = (combinations (List.range topic.length) n).map
          (fun ix => ix.map (fun i => topic.getD i "")) := by
  conv_lhs => rw [← map_getD_range "" topic]
  exact combinations_map _ _ _

/-- Combination enumeration over a strictly increasing list of positions is
strictly lexicographic. -/
theorem combinations_pairwise_lex :
    ∀ (l : List Nat), l.Pairwise (fun a b => a < b) →
      ∀ (n : Nat), (combinations l n).Pairwise (List.Lex (fun a b => a < b)) := by
  intro l
  induction l with
  | nil =>
      intro _ n
      cases n with
      | zero => exact List.pairwise_singleton _ _
      | succ m => simp [combinations]
  | cons x xs ih =>
      intro hp n
      have hxall : ∀ y ∈ xs, x < y := (List.pairwise_cons.mp hp).1
      have hxs : xs.Pairwise (fun a b => a < b) := (List.pairwise_cons.mp hp).2
      cases n with
      | zero => exact List.pairwise_singleton _ _
      | succ m =>
          simp only [combinations]
          rw [List.pairwise_append]
          refine ⟨?_, ih hxs (m + 1), ?_⟩
          · rw [List.pairwise_map]
            exact (ih hxs m).imp (fun h => List.Lex.cons h)
          · intro a ha b hb
            rcases List.mem_map.mp ha with ⟨c, hc, rfl⟩
            rcases combinations_sublist_length xs (m + 1) b hb with ⟨hs, hl⟩
            cases b with
            | nil => simp at hl
            | cons y ys =>
                have hy : y ∈ xs := hs.subset (List.mem_cons_self _ _)
                exact List.Lex.rel (hxall y hy)

/-- Claim C5: the bootstrap generator emits one space-joined query per
n-element combination of the clamped topic with the anchors appended in
order; every combination keeps its terms in original relative order and
has exactly n terms; the enumeration, read at the level of term
positions, is strictly lexicographic; and the concrete three-term topic
with size two yields exactly the three expected queries in order. -/
theorem bootstrap_topic_combinations_spec (topic anchors : List String) (n : Nat) :
    bootstrap_topic topic anchors n
      = (combinations topic (min n topic.length)).map
          (fun t => String.intercalate " " (t ++ anchors))
    ∧ (∀ c ∈ combinations topic n, c.Sublist topic ∧ c.length = n)
    ∧ combinations topic n
        = (combinations (List.range topic.length) n).map
            (fun ix => ix.map (fun i => topic.getD i ""))
    ∧ (combinations (List.range topic.length) n).Pairwise (List.Lex (fun a b => a < b))
    ∧ bootstrap_topic ["a", "b", "c"] [] 2 = ["a b", "a c", "b c"]
    ∧ bootstrap_topic ["a", "b", "c"] ["z"] 2 = ["a b z", "a c z", "b c z"] := by
  refine ⟨bootstrap_topic_min topic anchors n,
    combinations_sublist_length topic n,
    combinations_eq_index topic n,
    combinations_pairwise_lex (List.range topic.length) (List.pairwise_lt_range _) n,
    ?_, ?_⟩
  · decide
  · decide

/-- Moving a key from the cache body to the front preserves the set of keys
involved in the remaining run. -/
theorem lru_toFinset_shift (st qs : List String) (q : String) :
    ((q :: st) ++ qs).toFinset = (st ++ q :: qs).toFinset := by
  simp only [List.toFinset_append, List.toFinset_cons, Finset.insert_union,
    Finset.union_insert]

/-- While the total number of distinct keys fits the cache capacity, a
lookup of a key that is cached or was looked up earlier in the run is a
cache hit. -/
theorem lru_hit_of_seen (cap : Nat) :
    ∀ (qs : List String) (st : List String), st.Nodup →
      (st ++ qs).toFinset.card ≤ cap →
      ∀ (j : Nat), j < qs.length →
        (qs.getD j "" ∈ st ∨ ∃ i, i < j ∧ qs.getD i "" = qs.getD j "") →
        (lruMisses cap st qs).getD j true = false := by
  intro qs
  induction qs with
  | nil =>
      intro st _ _ j hj _
      exact absurd hj (by simp)
  | cons q qs ih =>
      intro st hnd hcard j hj hseen
      by_cases hqst : q ∈ st
      · have hstep1 : (lruStep cap st q).1 = q :: st.erase q := by
          simp [lruStep, hqst]
        have hstep2 : (lruStep cap st q).2 = false := by
          simp [lruStep, hqst]
        cases j with
        | zero =>
            simp only [lruMisses, hstep2, List.getD_cons_zero]
        | succ j =>
            simp only [lruMisses, hstep1, List.getD_cons_succ]
            apply ih
            · exact List.nodup_cons.mpr ⟨hnd.not_mem_erase, hnd.erase q⟩
            · refine le_trans (Finset.card_le_card ?_) hcard
              intro x hx
              simp only [List.toFinset_append, List.toFinset_cons, Finset.mem_union,
                Finset.mem_insert, List.mem_toFinset] at hx ⊢
              rcases hx with (hx | hx) | hx
              · exact Or.inr (Or.inl hx)
              · exact Or.inl ((List.erase_sublist q st).subset hx)
              · exact Or.inr (Or.inr hx)
            · exact Nat.lt_of_succ_lt_succ hj
            · rcases hseen with hmem | ⟨i, hi, hieq⟩
              · rw [List.getD_cons_succ] at hmem
                by_cases hq : qs.getD j "" = q
                · refine Or.inl ?_
                  rw [hq]
                  exact List.mem_cons_self _ _
                · exact Or.inl (List.mem_cons_of_mem _
                    ((List.mem_erase_of_ne hq).mpr hmem))
              · cases i with
                | zero =>
                    rw [List.getD_cons_zero, List.getD_cons_succ] at hieq
                    refine Or.inl ?_
                    rw [← hieq]
                    exact List.mem_cons_self _ _
                | succ i =>
                    rw [List.getD_cons_succ, List.getD_cons_succ] at hieq
                    exact Or.inr ⟨i, Nat.lt_of_succ_lt_succ hi, hieq⟩
      · have hlen : st.length + 1 ≤ cap := by
          have h1 : insert q st.toFinset ⊆ (st ++ q :: qs).toFinset := by
            intro x hx
            simp only [Finset.mem_insert, List.mem_toFinset, List.toFinset_append,
              List.toFinset_cons, Finset.mem_union] at hx ⊢
            rcases hx with hx | hx
            · exact Or.inr (Or.inl hx)
            · exact Or.inl hx
          have h2 := le_trans (Finset.card_le_card h1) hcard
          rw [Finset.card_insert_of_not_mem (fun hc => hqst (List.mem_toFinset.mp hc)),
              List.toFinset_card_of_nodup hnd] at h2
          exact h2
        have hstep1 : (lruStep cap st q).1 = q :: st := by
          simp only [lruStep, if_neg hqst]
          exact List.take_of_length_le (by simpa using hlen)
        cases j with
        | zero =>
            rcases hseen with hmem | ⟨i, hi, _⟩
            · rw [List.getD_cons_zero] at hmem
              exact absurd hmem hqst
            · exact absurd hi (Nat.not_lt_zero i)
        | succ j =>
            simp only [lruMisses, hstep1, List.getD_cons_succ]
            apply ih
            · exact List.nodup_cons.mpr ⟨hqst, hnd⟩
            · rw [lru_toFinset_shift st qs q]
              exact hcard
            · exact Nat.lt_of_succ_lt_succ hj
            · rcases hseen with hmem | ⟨i, hi, hieq⟩
              · rw [List.getD_cons_succ] at hmem
                exact Or.inl (List.mem_cons_of_mem _ hmem)
              · cases i with
                | zero =>
                    rw [List.getD_cons_zero, List.getD_cons_succ] at hieq
                    refine Or.inl ?_
                    rw [← hieq]
                    exact List.mem_cons_self _ _
                | succ i =>
                    rw [List.getD_cons_succ, List.getD_cons_succ] at hieq
                    exact Or.inr ⟨i, Nat.lt_of_succ_lt_succ hi, hieq⟩

/-- Claim C8, amended: the memoization caches applied to rank_wiki_labels
and get_wiki_cats are bounded least-recently-used caches of capacity
128, the default of the applied cache decorator, not unbounded ones:
within a run that looks up at most 128 distinct keys in total, a key
looked up once is never re-sent to the external collaborator on a later
identical lookup; with more distinct keys, eviction can re-send it. -/
theorem lru_cached_within_capacity (qs : List String) (i j : Nat)
    (hij : i < j) (hj : j < qs.length) (heq : qs.getD i "" = qs.getD j "")
    (hd : qs.dedup.length ≤ 128) :
    (lruMisses 128 [] qs).getD j true = false := by
  refine lru_hit_of_seen 128 qs [] List.nodup_nil ?_ j hj (Or.inr ⟨i, hij, heq⟩)
  rw [List.nil_append, List.card_toFinset]
  exact hd

/-- Claim C8, witness: a three-lookup run with two distinct keys, whose
third lookup repeats the first and is served from the cache. -/
theorem lru_cached_within_capacity_witness :
    (lruMisses 128 [] ["a", "b", "a"]).getD 2 true = false :=
  lru_cached_within_capacity ["a", "b", "a"] 0 2 (by decide) (by decide) rfl (by decide)

set_option maxRecDepth 4000 in
/-- Claim C8, counterexample: the key at position 0 is looked up again at
position 129 after 128 distinct other keys, and that later identical
lookup is re-sent to the external collaborator because the capacity-128
cache evicted it, refuting unbounded never-evicted memoization. -/
theorem lru_eviction_cex :
    cexQueries.getD 0 "" = "q"
    ∧ cexQueries.getD 129 "" = "q"
    ∧ cexQueries.length = 130
    ∧ (lruMisses 128 [] cexQueries).getD 129 true = true := by
  refine ⟨rfl, by decide, by decide, by decide⟩
